import Mathlib

/-!
Verification of the background-ingestion pipeline of the Chat repository:
the per-user JSON metadata store (`backend/utils/metadata_manager.py`),
the recursive chunker (`backend/utils/chunking.py`), filename sanitization
(`backend/utils/helpers.py`) and the background processing pipeline
(`backend/utils/file_processing.py`), shallowly embedded over `List Char`
strings and association-list dictionaries (Python dicts preserve insertion
order, which the association lists model directly).
-/

namespace ChatSpec

/-- Python strings are modelled as lists of unicode scalar characters. -/
abbrev Str := List Char

/-- Convert a Lean string literal to the `List Char` model. -/
def toL (s : String) : Str := s.toList

/-- The characters Python `str.strip()` removes (ASCII whitespace; the
unicode extras never occur in the embedded texts). -/
def isPyWs (c : Char) : Bool :=
  c.toNat = 32 || c.toNat = 9 || c.toNat = 10 || c.toNat = 13 ||
    c.toNat = 11 || c.toNat = 12

/-- Remove characters satisfying `p` from both ends, as Python `str.strip`. -/
def trimBy (p : Char → Bool) (l : Str) : Str :=
  ((l.dropWhile p).reverse.dropWhile p).reverse

/-- Python `str.strip()` with no arguments. -/
def pyStrip (l : Str) : Str := trimBy isPyWs l

/-- Scalar JSON values as stored in a FileRecord: Python `None`, booleans,
numbers (timestamps and sizes; modelled as integers) and strings. -/
inductive JScalar where
  | jnull : JScalar
  | jbool : Bool → JScalar
  | jnum : Int → JScalar
  | jstr : Str → JScalar
deriving DecidableEq

/-- One FileRecord: a Python dict from field name to scalar value,
modelled as an insertion-ordered association list. -/
abbrev FileRec := List (Str × JScalar)

/-- A user's metadata mapping: file id to FileRecord, insertion-ordered. -/
abbrev Store := List (Str × FileRec)

/-- Association-list lookup, first match wins (Python dict lookup; dicts
never hold duplicate keys, so the first match is the only one). -/
def lookupA {α : Type} : List (Str × α) → Str → Option α
  | [], _ => none
  | (k0, v0) :: rest, k => if k0 = k then some v0 else lookupA rest k

/-- Python `key in d`. -/
def containsKey {α : Type} (d : List (Str × α)) (k : Str) : Bool :=
  (lookupA d k).isSome

/-- Python `d[k] = v`: replace the value in place if the key is present,
otherwise append the new binding at the end. -/
def dictInsert {α : Type} : List (Str × α) → Str → α → List (Str × α)
  | [], k, v => [(k, v)]
  | (k0, v0) :: rest, k, v =>
    if k0 = k then (k, v) :: rest else (k0, v0) :: dictInsert rest k v

/-- Python `d.update(u)`: insert every binding of `u` in order. -/
def pyDictUpdate {α : Type} (d u : List (Str × α)) : List (Str × α) :=
  u.foldl (fun acc kv => dictInsert acc kv.1 kv.2) d

/-- Python `del d[k]`: drop the (unique) binding of `k`. -/
def eraseKey {α : Type} : List (Str × α) → Str → List (Str × α)
  | [], _ => []
  | (k0, v0) :: rest, k =>
    if k0 = k then rest else (k0, v0) :: eraseKey rest k

theorem lookupA_dictInsert_self {α : Type} (d : List (Str × α)) (k : Str) (v : α) :
    lookupA (dictInsert d k v) k = some v := by
  induction d with
  | nil => simp [dictInsert, lookupA]
  | cons hd tl ih =>
    obtain ⟨k0, v0⟩ := hd
    by_cases h : k0 = k
    · simp [dictInsert, h, lookupA]
    · simp [dictInsert, h, lookupA, ih]

theorem lookupA_dictInsert_ne {α : Type} (d : List (Str × α)) (k k' : Str) (v : α)
    (h : k' ≠ k) : lookupA (dictInsert d k v) k' = lookupA d k' := by
  induction d with
  | nil => simp [dictInsert, lookupA, if_neg (Ne.symm h)]
  | cons hd tl ih =>
    obtain ⟨k0, v0⟩ := hd
    by_cases h0 : k0 = k
    · subst h0
      simp [dictInsert, lookupA, if_neg (Ne.symm h)]
    · simp only [dictInsert, if_neg h0, lookupA]
      by_cases h1 : k0 = k'
      · simp [h1]
      · simp [h1, ih]

theorem lookupA_none_of_not_memKeys {α : Type} (d : List (Str × α)) (k : Str)
    (h : k ∉ d.map Prod.fst) : lookupA d k = none := by
  induction d with
  | nil => simp [lookupA]
  | cons hd tl ih =>
    obtain ⟨k0, v0⟩ := hd
    simp only [List.map_cons, List.mem_cons] at h
    push_neg at h
    simp only [lookupA, if_neg (Ne.symm h.1)]
    exact ih h.2

theorem lookupA_pyDictUpdate {α : Type} (d u : List (Str × α)) (k : Str)
    (hnd : (u.map Prod.fst).Nodup) :
    lookupA (pyDictUpdate d u) k = (lookupA u k).or (lookupA d k) := by
  induction u generalizing d with
  | nil => simp [pyDictUpdate, lookupA]
  | cons hd tl ih =>
    obtain ⟨k0, v0⟩ := hd
    simp only [List.map_cons, List.nodup_cons] at hnd
    have step : pyDictUpdate d ((k0, v0) :: tl) = pyDictUpdate (dictInsert d k0 v0) tl := by
      simp [pyDictUpdate, List.foldl_cons]
    rw [step, ih (dictInsert d k0 v0) hnd.2]
    by_cases h : k0 = k
    · subst h
      have : lookupA tl k0 = none := lookupA_none_of_not_memKeys tl k0 hnd.1
      simp [lookupA, this, lookupA_dictInsert_self]
    · simp [lookupA, h, lookupA_dictInsert_ne d k0 k v0 (fun hh => h hh.symm)]

/-- The field set `REQUIRED_KEYS` of `MetadataManager.update_file_metadata`. -/
def requiredKeys : List Str :=
  [toL ("id"), toL ("name"), toL ("stored_name"), toL ("path"),
   toL ("size"), toL ("mime_type"), toL ("status"), toL ("uploaded_at")]

/-- The `last_updated` field name. -/
def lastUpdatedKey : Str := toL ("last_updated")

/-- Embedding of `MetadataManager.update_file_metadata(user_id, file_id, updates)`
(`metadata_manager.py` lines 107-139), embedded per user over the loaded
mapping (save/load round through JSON, see `loadMetadata` below).  Returns
the persisted mapping after the call and the raised error, if any.  For a
new `file_id` the required-field check raises before anything is merged or
saved, so the persisted mapping is returned unchanged in that branch; the
error text is abbreviated from the Python message.  On the success path
the record is merged with `updates`, `last_updated` is set to `now`, and
the whole mapping is saved. -/
def updateFileMetadata (meta : Store) (fileId : Str) (updates : FileRec)
    (now : JScalar) : Store × Option Str :=
  if containsKey meta fileId = false ∧
      (requiredKeys.filter (fun k => containsKey updates k = false)) ≠ [] then
    (meta, some (toL ("Cannot create file metadata: missing required fields")))
  else
    let meta1 := if containsKey meta fileId then meta else dictInsert meta fileId []
    let old := (lookupA meta1 fileId).getD []
    let merged := dictInsert (pyDictUpdate old updates) lastUpdatedKey now
    (dictInsert meta1 fileId merged, none)

/-- C5: creating a record through `update_record` with any required field
missing raises a validation error and leaves the user's persisted mapping
exactly as it was (no partial record is persisted). -/
theorem c5_missing_required_field_rejected (meta : Store) (fileId : Str)
    (updates : FileRec) (now : JScalar)
    (habs : lookupA meta fileId = none)
    (r : Str) (hr : r ∈ requiredKeys) (hmiss : lookupA updates r = none) :
    (updateFileMetadata meta fileId updates now).1 = meta ∧
    (updateFileMetadata meta fileId updates now).2.isSome = true := by
  have hck : containsKey meta fileId = false := by simp [containsKey, habs]
  have hex : ∃ x ∈ requiredKeys, containsKey updates x = false :=
    ⟨r, hr, by simp [containsKey, hmiss]⟩
  simp [updateFileMetadata, hck, hex]

/-- Witness for C5: creating a fresh record with only a `status` field. -/
theorem c5_witness :
    (updateFileMetadata [] (toL ("f1"))
      [(toL ("status"), JScalar.jstr (toL ("processing")))] (JScalar.jnum 0)).1 = [] :=
  (c5_missing_required_field_rejected [] (toL ("f1"))
    [(toL ("status"), JScalar.jstr (toL ("processing")))] (JScalar.jnum 0)
    rfl (toL ("id")) (by decide) rfl).1

/-- C8: a successful `update_record` on an existing `file_id` raises no
error, leaves every other record unchanged, and the record for `file_id`
afterwards is the old record overwritten by the keys of `updates`, with
`last_updated` set to the current time. -/
theorem c8_update_existing_record_frame (meta : Store) (fileId : Str)
    (updates : FileRec) (now : JScalar) (old : FileRec)
    (hold : lookupA meta fileId = some old)
    (hnd : (updates.map Prod.fst).Nodup) :
    (updateFileMetadata meta fileId updates now).2 = none ∧
    (∀ k : Str, k ≠ fileId →
      lookupA (updateFileMetadata meta fileId updates now).1 k = lookupA meta k) ∧
    ∃ newRec : FileRec,
      lookupA (updateFileMetadata meta fileId updates now).1 fileId = some newRec ∧
      lookupA newRec lastUpdatedKey = some now ∧
      (∀ k : Str, k ≠ lastUpdatedKey →
        lookupA newRec k = (lookupA updates k).or (lookupA old k)) := by
  have hck : containsKey meta fileId = true := by simp [containsKey, hold]
  have hres : updateFileMetadata meta fileId updates now =
      (dictInsert meta fileId
        (dictInsert (pyDictUpdate old updates) lastUpdatedKey now), none) := by
    simp [updateFileMetadata, hck, hold]
  refine ⟨by simp [hres], ?_, ?_⟩
  · intro k hk
    rw [hres]
    exact lookupA_dictInsert_ne meta fileId k _ hk
  · refine ⟨dictInsert (pyDictUpdate old updates) lastUpdatedKey now, ?_, ?_, ?_⟩
    · rw [hres]
      exact lookupA_dictInsert_self meta fileId _
    · exact lookupA_dictInsert_self _ lastUpdatedKey now
    · intro k hk
      rw [lookupA_dictInsert_ne _ lastUpdatedKey k now hk]
      exact lookupA_pyDictUpdate old updates k hnd

/-- Witness for C8 on a concrete one-record mapping. -/
theorem c8_witness :
    (updateFileMetadata [(toL ("f1"), [(toL ("status"), JScalar.jstr (toL ("processing")))])]
      (toL ("f1")) [(toL ("status"), JScalar.jstr (toL ("ready")))] (JScalar.jnum 7)).2
      = none :=
  (c8_update_existing_record_frame
    [(toL ("f1"), [(toL ("status"), JScalar.jstr (toL ("processing")))])]
    (toL ("f1")) [(toL ("status"), JScalar.jstr (toL ("ready")))] (JScalar.jnum 7)
    [(toL ("status"), JScalar.jstr (toL ("processing")))] rfl (by decide)).1

/-! ### JSON serialization (models `json.dumps` / `json.loads` as used by
`save_metadata` and `load_metadata` on the two-level FileRecord mapping).
Numbers are modelled as integers (timestamps lose nothing the claims need),
`indent=2` whitespace is omitted (parse-equivalent), and non-ASCII
characters are passed through unescaped (`ensure_ascii` only changes the
byte-level representation, not the parse result). -/

/-- ASCII decimal digit test. -/
def isDigitCh (c : Char) : Bool := '0' ≤ c && c ≤ '9'

/-- The decimal digit character for `n < 10`. -/
def digitCh (n : Nat) : Char := Char.ofNat ('0'.toNat + n)

/-- Decimal digits of a natural number, most significant first. -/
def natDigits (n : Nat) : Str :=
  if n < 10 then [digitCh n] else natDigits (n / 10) ++ [digitCh (n % 10)]
termination_by n
decreasing_by exact Nat.div_lt_self (by omega) (by omega)

/-- Python `repr` of an integer: optional minus sign, then decimal digits. -/
def intChars (i : Int) : Str :=
  (if i < 0 then ['-'] else []) ++ natDigits i.natAbs

/-- Lower-case hexadecimal digit character for `n < 16`. -/
def hexDigitCh (n : Nat) : Char :=
  if n < 10 then digitCh n else Char.ofNat ('a'.toNat + (n - 10))

/-- JSON escaping of one character: the short escapes of CPython's
`ESCAPE_DCT`, `\u00xx` for the remaining control characters, everything
else passed through. -/
def escChar (c : Char) : Str :=
  if c = '"' then ['\\', '"']
  else if c = '\\' then ['\\', '\\']
  else if c = '\n' then ['\\', 'n']
  else if c = '\t' then ['\\', 't']
  else if c = '\r' then ['\\', 'r']
  else if c = '\x08' then ['\\', 'b']
  else if c = '\x0c' then ['\\', 'f']
  else if c.toNat < 0x20 then
    ['\\', 'u', '0', '0', hexDigitCh (c.toNat / 16), hexDigitCh (c.toNat % 16)]
  else [c]

/-- JSON escaping of a whole string body. -/
def escStr : Str → Str
  | [] => []
  | c :: cs => escChar c ++ escStr cs

/-- A JSON string literal: quote, escaped body, quote. -/
def dumpStr (s : Str) : Str := '"' :: (escStr s ++ ['"'])

/-- Serialize one scalar value. -/
def dumpScalar : JScalar → Str
  | .jnull => ['n', 'u', 'l', 'l']
  | .jbool true => ['t', 'r', 'u', 'e']
  | .jbool false => ['f', 'a', 'l', 's', 'e']
  | .jnum n => intChars n
  | .jstr s => dumpStr s

/-- Serialize the comma-separated fields of one FileRecord. -/
def dumpRecFields : FileRec → Str
  | [] => []
  | [(k, v)] => dumpStr k ++ ':' :: dumpScalar v
  | (k, v) :: f :: rest =>
    dumpStr k ++ ':' :: (dumpScalar v ++ ',' :: dumpRecFields (f :: rest))

/-- Serialize one FileRecord as a JSON object. -/
def dumpObjRec (r : FileRec) : Str := '\x7b' :: (dumpRecFields r ++ ['\x7d'])

/-- Serialize the comma-separated entries of the whole mapping. -/
def dumpStoreFields : Store → Str
  | [] => []
  | [(k, v)] => dumpStr k ++ ':' :: dumpObjRec v
  | (k, v) :: f :: rest =>
    dumpStr k ++ ':' :: (dumpObjRec v ++ ',' :: dumpStoreFields (f :: rest))

/-- Serialize the whole mapping as a JSON object of objects. -/
def dumpStore (st : Store) : Str := '\x7b' :: (dumpStoreFields st ++ ['\x7d'])

/-- Embedding of `MetadataManager.save_metadata` (`metadata_manager.py` lines 74-105):
serialize the full mapping and replace the file's content.  The retry
loop collapses under successful I/O, which is the situation every claim
about persisted content quantifies over. -/
def saveMetadata (meta : Store) : Str := dumpStore meta

/-- Hexadecimal digit value, accepting both cases as `json.loads` does. -/
def hexValCh (c : Char) : Option Nat :=
  let n := c.toNat
  if 48 ≤ n ∧ n ≤ 57 then some (n - 48)
  else if 97 ≤ n ∧ n ≤ 102 then some (n - 87)
  else if 65 ≤ n ∧ n ≤ 70 then some (n - 55)
  else none

/-- Prepend a decoded character to a string-parse result. -/
def consFst (c : Char) : Option (Str × Str) → Option (Str × Str)
  | none => none
  | some (s, r) => some (c :: s, r)

/-- Parse a JSON string body after the opening quote (strict mode: raw
control characters are rejected, as `json.loads` does by default). -/
def parseStrBody : Str → Option (Str × Str)
  | [] => none
  | c :: r =>
    if c = '"' then some ([], r)
    else if c = '\\' then
      match r with
      | [] => none
      | e :: r2 =>
        if e = '"' then consFst '"' (parseStrBody r2)
        else if e = '\\' then consFst '\\' (parseStrBody r2)
        else if e = '/' then consFst '/' (parseStrBody r2)
        else if e = 'n' then consFst '\n' (parseStrBody r2)
        else if e = 't' then consFst '\t' (parseStrBody r2)
        else if e = 'r' then consFst '\r' (parseStrBody r2)
        else if e = 'b' then consFst '\x08' (parseStrBody r2)
        else if e = 'f' then consFst '\x0c' (parseStrBody r2)
        else if e = 'u' then
          match r2 with
          | h1 :: h2 :: h3 :: h4 :: r3 =>
            match hexValCh h1, hexValCh h2, hexValCh h3, hexValCh h4 with
            | some a, some b, some c3, some d =>
              let n := ((a * 16 + b) * 16 + c3) * 16 + d
              if Nat.isValidChar n then consFst (Char.ofNat n) (parseStrBody r3)
              else none
            | _, _, _, _ => none
          | _ => none
        else none
    else if c.toNat < 0x20 then none
    else consFst c (parseStrBody r)

/-- Greedily consume decimal digits into an accumulator. -/
def parseNatAcc : Str → Nat → Nat × Str
  | [], acc => (acc, [])
  | c :: cs, acc =>
    if isDigitCh c then parseNatAcc cs (acc * 10 + (c.toNat - '0'.toNat))
    else (acc, c :: cs)

/-- Parse an integer token: optional minus sign, then either a single
zero or a nonzero digit followed by more digits — the JSON number
grammar, under which `json.loads` rejects leading zeros such as `0123`
(the stray digits become trailing garbage and the document fails). -/
def parseIntTok : Str → Option (Int × Str)
  | [] => none
  | c :: cs =>
    if c = '-' then
      match cs with
      | [] => none
      | c2 :: cs2 =>
        if c2 = '0' then some (0, cs2)
        else if isDigitCh c2 then
          let p := parseNatAcc (c2 :: cs2) 0
          some (-(p.1 : Int), p.2)
        else none
    else if c = '0' then some (0, cs)
    else if isDigitCh c then
      let p := parseNatAcc (c :: cs) 0
      some ((p.1 : Int), p.2)
    else none

/-- Parse one scalar JSON value. -/
def parseScalarTok : Str → Option (JScalar × Str)
  | [] => none
  | c :: r =>
    if c = 'n' then
      match r with
      | 'u' :: 'l' :: 'l' :: r2 => some (.jnull, r2)
      | _ => none
    else if c = 't' then
      match r with
      | 'r' :: 'u' :: 'e' :: r2 => some (.jbool true, r2)
      | _ => none
    else if c = 'f' then
      match r with
      | 'a' :: 'l' :: 's' :: 'e' :: r2 => some (.jbool false, r2)
      | _ => none
    else if c = '"' then
      match parseStrBody r with
      | some (s2, r2) => some (.jstr s2, r2)
      | none => none
    else
      match parseIntTok (c :: r) with
      | some (n, r2) => some (.jnum n, r2)
      | none => none

/-- Parse the one-or-more comma-separated fields of a record object; the
empty object is handled by `parseRecObj`.  `fuel` only bounds the loop
(the caller passes one more than the input length, which the round-trip
lemmas show is always enough). -/
def parseRecFields : Nat → Str → Option (FileRec × Str)
  | 0, _ => none
  | fuel + 1, s =>
    match s with
    | '"' :: r =>
      match parseStrBody r with
      | none => none
      | some (k, r1) =>
        match r1 with
        | ':' :: r2 =>
          match parseScalarTok r2 with
          | none => none
          | some (v, r3) =>
            match r3 with
            | ',' :: r4 =>
              match parseRecFields fuel r4 with
              | some (fs, r5) => some ((k, v) :: fs, r5)
              | none => none
            | '\x7d' :: r4 => some ([(k, v)], r4)
            | _ => none
        | _ => none
    | _ => none

/-- Parse a record object after its opening brace. -/
def parseRecObj (fuel : Nat) (s : Str) : Option (FileRec × Str) :=
  match s with
  | '\x7d' :: r => some ([], r)
  | _ => parseRecFields fuel s

/-- Parse the one-or-more comma-separated entries of the top-level
mapping; the empty mapping is handled by `parseStoreObj`. -/
def parseStoreFields : Nat → Str → Option (Store × Str)
  | 0, _ => none
  | fuel + 1, s =>
    match s with
    | '"' :: r =>
      match parseStrBody r with
      | none => none
      | some (k, r1) =>
        match r1 with
        | ':' :: '\x7b' :: r2 =>
          match parseRecObj (r2.length + 1) r2 with
          | none => none
          | some (v, r3) =>
            match r3 with
            | ',' :: r4 =>
              match parseStoreFields fuel r4 with
              | some (fs, r5) => some ((k, v) :: fs, r5)
              | none => none
            | '\x7d' :: r4 => some ([(k, v)], r4)
            | _ => none
        | _ => none
    | _ => none

/-- Parse the top-level mapping object after its opening brace. -/
def parseStoreObj (fuel : Nat) (s : Str) : Option (Store × Str) :=
  match s with
  | '\x7d' :: r => some ([], r)
  | _ => parseStoreFields fuel s

/-- Parse a complete stored document: a top-level object of record
objects, with nothing but the document in the content (`json.loads`
raises on trailing data). -/
def parseStoreTop (s : Str) : Option Store :=
  match s with
  | '\x7b' :: r =>
    match parseStoreObj (r.length + 1) r with
    | some (st, []) => some st
    | _ => none
  | _ => none

/-- The CPython default recursion limit (`sys.getrecursionlimit()`),
which bounds how deep `json.loads` may nest before raising
`RecursionError`. -/
def recursionLimit : Nat := 1000

/-- Length of the leading run of `[` characters: the nesting depth the
JSON scanner descends through before reading any other token.  An
object opener stops the run because the object scanner demands a quoted
property name immediately (so `\x7b\x7b...` fails with a decode error at
depth two rather than recursing). -/
def leadingOpenRun : Str → Nat
  | [] => 0
  | c :: rest => if c = '[' then leadingOpenRun rest + 1 else 0

deriving instance DecidableEq for Except

/-- How a `json.loads(content)` call ends. -/
inductive LoadsResult where
  | ok : Store → LoadsResult
  | decodeError : LoadsResult
  | recursionError : LoadsResult
deriving DecidableEq

/-- Classification of `json.loads(content)` over the two-level store
grammar: content whose leading `[`-run exceeds the recursion limit
makes the scanner recurse past the limit and raise `RecursionError`
(the exact cutoff depends on the interpreter's current stack depth;
the model uses the default limit, which classifies the claim-relevant
inputs correctly and no serialized store comes near it), a valid
document parses, and everything else raises `json.JSONDecodeError`. -/
def pyLoads (s : Str) : LoadsResult :=
  if recursionLimit < leadingOpenRun s then .recursionError
  else
    match parseStoreTop s with
    | some st => .ok st
    | none => .decodeError

/-- Embedding of `MetadataManager.load_metadata` (`metadata_manager.py`
lines 42-72): a missing backing file is first created with content
`\x7b\x7d`, empty content yields the empty mapping, and the
`except json.JSONDecodeError` handler turns exactly the decode failures
into the empty mapping (logged and discarded) — but a `RecursionError`
raised by `json.loads` on over-deep stored content is not caught and
propagates out of the call (`Except.error`). -/
def loadMetadata (content : Option Str) : Except Str Store :=
  let c := content.getD (toL ("\x7b\x7d"))
  if pyStrip c = [] then .ok []
  else
    match pyLoads c with
    | .ok st => .ok st
    | .decodeError => .ok []
    | .recursionError =>
      .error (toL ("RecursionError: maximum recursion depth exceeded"))

/-- One user's cached `asyncio.Lock` as seen from a single coroutine
chain: `held` says whether this task already holds it.  Awaiting
`async with lock` on a lock the same task already holds never
completes — `asyncio.Lock` is not reentrant, and only the holder could
release it — modelled as `none`. -/
def acquireUserLock (held : Bool) : Option Bool :=
  if held then none else some true

/-- Embedding of `load_metadata` as awaited from a task that may
already hold the user's lock (the method re-acquires that lock around
the file read, `metadata_manager.py` line 49); `none` means the await
never completes. -/
def loadMetadataTask (held : Bool) (content : Option Str) :
    Option (Except Str Store) :=
  match acquireUserLock held with
  | none => none
  | some _ => some (loadMetadata content)

/-- Embedding of `save_metadata` as awaited from a task that may
already hold the user's lock (the method re-acquires that lock around
the write, `metadata_manager.py` line 87). -/
def saveMetadataTask (held : Bool) (meta : Store) : Option Str :=
  match acquireUserLock held with
  | none => none
  | some _ => some (saveMetadata meta)

/-- Embedding of `MetadataManager.delete_file_metadata(user_id,
file_id)` (`metadata_manager.py` lines 141-149) including its lock
discipline: the method takes the per-user lock (`async with lock:`,
line 144) and then awaits `self.load_metadata(user_id)`, which
re-acquires the same non-reentrant lock — already held by this very
task — so that await never completes.  The intended body (delete the
entry if present and save, silent no-op otherwise) follows it in the
embedding exactly as in the source, but is unreachable.  `none` is a
call that never completes; `some` would be its outcome: the persisted
content afterwards, or an uncaught error. -/
def deleteFileMetadataTask (content : Option Str) (fileId : Str) :
    Option (Except Str (Option Str)) :=
  match acquireUserLock false with
  | none => none
  | some _ =>
    match loadMetadataTask true content with
    | none => none
    | some (.error e) => some (.error e)
    | some (.ok meta) =>
      if containsKey meta fileId then
        match saveMetadataTask true (eraseKey meta fileId) with
        | none => none
        | some newContent => some (.ok (some newContent))
      else some (.ok content)

/-- C2 is refuted by the locking: for every stored content and file id,
`delete_record` deadlocks instead of terminating.  It acquires the
per-user `asyncio.Lock` and then awaits `load_metadata`, which
re-acquires the same non-reentrant lock already held by this task, so
the coroutine never completes and in particular never removes the
entry. -/
theorem c2_delete_deadlocks (content : Option Str) (fileId : Str) :
    deleteFileMetadataTask content fileId = none := rfl

/-! ### Round-trip lemmas for the JSON layer -/

/-- A token boundary for number parsing: the remaining input does not
start with a digit. -/
def noLeadingDigit (rest : Str) : Prop :=
  ∀ c, rest.head? = some c → isDigitCh c = false

theorem digitCh_toNat : ∀ n, n < 10 → (digitCh n).toNat = 48 + n := by decide

theorem isDigitCh_digitCh : ∀ n, n < 10 → isDigitCh (digitCh n) = true := by decide

theorem hexValCh_hexDigitCh : ∀ n, n < 16 → hexValCh (hexDigitCh n) = some n := by decide

theorem natDigits_digits (n : Nat) : ∀ c ∈ natDigits n, isDigitCh c = true := by
  induction n using Nat.strong_induction_on with
  | _ n ih =>
    rw [natDigits.eq_def]
    by_cases h : n < 10
    · simp only [if_pos h, List.mem_singleton]
      intro c hc
      subst hc
      exact isDigitCh_digitCh n h
    · simp only [if_neg h, List.mem_append, List.mem_singleton]
      intro c hc
      rcases hc with hc | hc
      · exact ih (n / 10) (Nat.div_lt_self (by omega) (by omega)) c hc
      · subst hc
        exact isDigitCh_digitCh (n % 10) (Nat.mod_lt n (by omega))

theorem natDigits_ne_nil (n : Nat) : natDigits n ≠ [] := by
  rw [natDigits.eq_def]
  by_cases h : n < 10
  · simp [if_pos h]
  · simp [if_neg h]

theorem parseNatAcc_append (ds : Str) :
    ∀ (rest : Str) (acc : Nat), (∀ c ∈ ds, isDigitCh c = true) → noLeadingDigit rest →
    parseNatAcc (ds ++ rest) acc
      = (ds.foldl (fun a c => a * 10 + (c.toNat - '0'.toNat)) acc, rest) := by
  induction ds with
  | nil =>
    intro rest acc _ hrest
    cases rest with
    | nil => simp [parseNatAcc]
    | cons c r =>
      have : isDigitCh c = false := hrest c rfl
      simp [parseNatAcc, this]
  | cons c cs ih =>
    intro rest acc hds hrest
    have hc : isDigitCh c = true := hds c (List.mem_cons_self c cs)
    simp only [List.cons_append, parseNatAcc, hc, if_pos, List.append_eq]
    rw [ih rest _ (fun x hx => hds x (List.mem_cons_of_mem c hx)) hrest]
    simp [List.foldl_cons]

theorem foldl_natDigits (n : Nat) : ∀ acc : Nat,
    (natDigits n).foldl (fun a c => a * 10 + (c.toNat - '0'.toNat)) acc
      = acc * 10 ^ (natDigits n).length + n := by
  induction n using Nat.strong_induction_on with
  | _ n ih =>
    intro acc
    rw [natDigits.eq_def]
    by_cases h : n < 10
    · simp only [if_pos h, List.foldl_cons, List.foldl_nil, List.length_singleton]
      rw [digitCh_toNat n h]
      have : '0'.toNat = 48 := by decide
      rw [this]
      simp
    · simp only [if_neg h, List.foldl_append, List.foldl_cons, List.foldl_nil,
        List.length_append, List.length_singleton]
      rw [ih (n / 10) (Nat.div_lt_self (by omega) (by omega)) acc]
      rw [digitCh_toNat (n % 10) (Nat.mod_lt n (by omega))]
      have hpow : 10 ^ ((natDigits (n / 10)).length + 1)
          = 10 ^ (natDigits (n / 10)).length * 10 := pow_succ 10 _
      rw [hpow]
      have hmod : 48 + n % 10 - '0'.toNat = n % 10 := by
        have : '0'.toNat = 48 := by decide
        omega
      rw [hmod]
      have := Nat.div_add_mod n 10
      ring_nf
      omega

theorem parseNatAcc_natDigits (n : Nat) (rest : Str) (hrest : noLeadingDigit rest) :
    parseNatAcc (natDigits n ++ rest) 0 = (n, rest) := by
  rw [parseNatAcc_append (natDigits n) rest 0 (natDigits_digits n) hrest,
    foldl_natDigits n 0]
  simp

theorem natDigits_head_ne_zero :
    ∀ n : Nat, 1 ≤ n → ∀ (d : Char) (ds : Str), natDigits n = d :: ds → d ≠ '0' := by
  intro n
  induction n using Nat.strong_induction_on with
  | _ n ih =>
    intro hn d ds h
    rw [natDigits.eq_def] at h
    by_cases h10 : n < 10
    · rw [if_pos h10] at h
      injection h with h1 _
      rw [← h1]
      have hval : (digitCh n).toNat = 48 + n := digitCh_toNat n h10
      intro hcon
      rw [hcon] at hval
      have hz : ('0').toNat = 48 := by decide
      omega
    · rw [if_neg h10] at h
      rcases hsub : natDigits (n / 10) with _ | ⟨d0, ds0⟩
      · exact absurd hsub (natDigits_ne_nil _)
      · rw [hsub] at h
        simp only [List.cons_append] at h
        injection h with h1 _
        rw [← h1]
        exact ih (n / 10) (Nat.div_lt_self (by omega) (by omega)) (by omega) d0 ds0 hsub

theorem parseIntTok_intChars (i : Int) (rest : Str) (hrest : noLeadingDigit rest) :
    parseIntTok (intChars i ++ rest) = some (i, rest) := by
  by_cases hzero : i = 0
  · subst hzero
    have hnd : natDigits 0 = ['0'] := by
      rw [natDigits.eq_def]
      decide
    have h0 : intChars 0 ++ rest = '0' :: rest := by
      simp [intChars, hnd]
    rw [h0]
    simp [parseIntTok]
  · rcases hshape : natDigits i.natAbs with _ | ⟨d, ds⟩
    · exact absurd hshape (natDigits_ne_nil i.natAbs)
    have hd : isDigitCh d = true := by
      have := natDigits_digits i.natAbs d
      rw [hshape] at this
      exact this (List.mem_cons_self d ds)
    have hdneg : d ≠ '-' := by
      intro hh
      rw [hh] at hd
      exact absurd hd (by decide)
    have hd0 : d ≠ '0' :=
      natDigits_head_ne_zero i.natAbs (by omega) d ds hshape
    have hparse : parseNatAcc (d :: (ds ++ rest)) 0 = (i.natAbs, rest) := by
      have hh := parseNatAcc_natDigits i.natAbs rest hrest
      rw [hshape] at hh
      simpa using hh
    by_cases hi : i < 0
    · have hsh : intChars i ++ rest = '-' :: (d :: (ds ++ rest)) := by
        simp [intChars, if_pos hi, hshape]
      rw [hsh]
      have hval : -(|i|) = i := by
        rw [Int.abs_eq_natAbs]
        omega
      simp [parseIntTok, hd, hd0, hparse, hval]
    · have hsh : intChars i ++ rest = d :: (ds ++ rest) := by
        simp [intChars, if_neg hi, hshape]
      rw [hsh]
      have hval : |i| = i := by
        rw [Int.abs_eq_natAbs]
        omega
      simp [parseIntTok, hdneg, hd, hd0, hparse, hval]

theorem parseStrBody_escStr (s : Str) : ∀ rest : Str,
    parseStrBody (escStr s ++ ('"' :: rest)) = some (s, rest) := by
  induction s with
  | nil =>
    intro rest
    show parseStrBody ([] ++ ('"' :: rest)) = some ([], rest)
    rw [List.nil_append, parseStrBody.eq_def]
    simp
  | cons c cs ih =>
    intro rest
    have hassoc : escStr (c :: cs) ++ ('"' :: rest)
        = escChar c ++ (escStr cs ++ ('"' :: rest)) := by
      simp [escStr, List.append_assoc]
    rw [hassoc]
    by_cases h1 : c = '"'
    · subst h1
      rw [show escChar '"' = ['\\', '"'] from by decide]
      rw [parseStrBody.eq_def]
      simp [ih rest, consFst]
    · by_cases h2 : c = '\\'
      · subst h2
        rw [show escChar '\\' = ['\\', '\\'] from by decide]
        rw [parseStrBody.eq_def]
        simp [ih rest, consFst]
      · by_cases h3 : c = '\n'
        · subst h3
          rw [show escChar '\n' = ['\\', 'n'] from by decide]
          rw [parseStrBody.eq_def]
          simp [ih rest, consFst]
        · by_cases h4 : c = '\t'
          · subst h4
            rw [show escChar '\t' = ['\\', 't'] from by decide]
            rw [parseStrBody.eq_def]
            simp [ih rest, consFst]
          · by_cases h5 : c = '\r'
            · subst h5
              rw [show escChar '\r' = ['\\', 'r'] from by decide]
              rw [parseStrBody.eq_def]
              simp [ih rest, consFst]
            · by_cases h6 : c = '\x08'
              · subst h6
                rw [show escChar '\x08' = ['\\', 'b'] from by decide]
                rw [parseStrBody.eq_def]
                simp [ih rest, consFst]
              · by_cases h7 : c = '\x0c'
                · subst h7
                  rw [show escChar '\x0c' = ['\\', 'f'] from by decide]
                  rw [parseStrBody.eq_def]
                  simp [ih rest, consFst]
                · by_cases h8 : c.toNat < 0x20
                  · have hesc : escChar c
                        = ['\\', 'u', '0', '0',
                           hexDigitCh (c.toNat / 16), hexDigitCh (c.toNat % 16)] := by
                      simp [escChar, h1, h2, h3, h4, h5, h6, h7, h8]
                    rw [hesc]
                    have hv1 : hexValCh (hexDigitCh (c.toNat / 16)) = some (c.toNat / 16) :=
                      hexValCh_hexDigitCh _ (by omega)
                    have hv2 : hexValCh (hexDigitCh (c.toNat % 16)) = some (c.toNat % 16) :=
                      hexValCh_hexDigitCh _ (by omega)
                    have hv0 : hexValCh '0' = some 0 := by decide
                    have hn : ((0 * 16 + 0) * 16 + c.toNat / 16) * 16 + c.toNat % 16
                        = c.toNat := by omega
                    have hn2 : (c.toNat / 16) * 16 + c.toNat % 16 = c.toNat := by omega
                    have hvalid : Nat.isValidChar c.toNat := Or.inl (by omega)
                    rw [parseStrBody.eq_def]
                    simp [hv0, hv1, hv2, hn, hn2, hvalid, Char.ofNat_toNat,
                      consFst, ih rest]
                  · have hesc : escChar c = [c] := by
                      simp [escChar, h1, h2, h3, h4, h5, h6, h7, h8]
                    rw [hesc]
                    rw [parseStrBody.eq_def]
                    simp [h1, h2, h8, consFst, ih rest]

theorem parseScalarTok_dumpScalar (v : JScalar) (rest : Str)
    (hrest : noLeadingDigit rest) :
    parseScalarTok (dumpScalar v ++ rest) = some (v, rest) := by
  cases v with
  | jnull => simp [dumpScalar, parseScalarTok]
  | jbool b =>
    cases b with
    | false => simp [dumpScalar, parseScalarTok]
    | true => simp [dumpScalar, parseScalarTok]
  | jstr s =>
    have hstr : dumpScalar (.jstr s) ++ rest = '"' :: (escStr s ++ ('"' :: rest)) := by
      simp [dumpScalar, dumpStr, List.append_assoc]
    rw [hstr]
    simp [parseScalarTok, parseStrBody_escStr s rest]
  | jnum n =>
    have hint := parseIntTok_intChars n rest hrest
    have hhead : ∃ c r, intChars n = c :: r ∧ (c = '-' ∨ isDigitCh c = true) := by
      by_cases hn : n < 0
      · exact ⟨'-', natDigits n.natAbs, by simp [intChars, if_pos hn], Or.inl rfl⟩
      · rcases hshape : natDigits n.natAbs with _ | ⟨d, ds⟩
        · exact absurd hshape (natDigits_ne_nil n.natAbs)
        · refine ⟨d, ds, by simp [intChars, if_neg hn, hshape], Or.inr ?_⟩
          have hmem := natDigits_digits n.natAbs d
          rw [hshape] at hmem
          exact hmem (List.mem_cons_self d ds)
    obtain ⟨c, r, hcr, hc⟩ := hhead
    have hne : ∀ x : Char, isDigitCh x = false → x ≠ '-' → c ≠ x := by
      intro x hx hxm hcx
      subst hcx
      rcases hc with h | h
      · exact hxm h
      · rw [h] at hx
        exact absurd hx (by simp)
    have hcn : c ≠ 'n' := hne 'n' (by decide) (by decide)
    have hct : c ≠ 't' := hne 't' (by decide) (by decide)
    have hcf : c ≠ 'f' := hne 'f' (by decide) (by decide)
    have hcq : c ≠ '"' := hne '"' (by decide) (by decide)
    have hfull : dumpScalar (.jnum n) ++ rest = c :: (r ++ rest) := by
      simp [dumpScalar, hcr]
    rw [hfull]
    have hback : c :: (r ++ rest) = intChars n ++ rest := by
      rw [hcr]
      simp
    simp only [parseScalarTok, if_neg hcn, if_neg hct, if_neg hcf, if_neg hcq]
    rw [hback, hint]

theorem noLeadingDigit_cons (c : Char) (h : isDigitCh c = false) (l : Str) :
    noLeadingDigit (c :: l) := by
  intro x hx
  have hcx : c = x := by simpa using hx
  rw [← hcx]
  exact h

theorem dumpRecFields_length_le (fields : FileRec) :
    fields.length ≤ (dumpRecFields fields).length := by
  induction fields with
  | nil => simp [dumpRecFields]
  | cons kv rest ih =>
    obtain ⟨k, v⟩ := kv
    cases rest with
    | nil => simp [dumpRecFields, dumpStr]
    | cons f2 rest2 =>
      simp only [dumpRecFields, List.length_append, List.length_cons] at ih ⊢
      omega

theorem dumpStoreFields_length_le (sts : Store) :
    sts.length ≤ (dumpStoreFields sts).length := by
  induction sts with
  | nil => simp [dumpStoreFields]
  | cons kv rest ih =>
    obtain ⟨k, v⟩ := kv
    cases rest with
    | nil => simp [dumpStoreFields, dumpStr]
    | cons f2 rest2 =>
      simp only [dumpStoreFields, List.length_append, List.length_cons] at ih ⊢
      omega

theorem parseRecFields_dump (fields : FileRec) : ∀ (fuel : Nat) (rest : Str),
    fields ≠ [] → fields.length ≤ fuel →
    parseRecFields fuel (dumpRecFields fields ++ ('\x7d' :: rest))
      = some (fields, rest) := by
  induction fields with
  | nil =>
    intro fuel rest h _
    exact absurd rfl h
  | cons kv tail ih =>
    intro fuel rest _ hlen
    obtain ⟨k, v⟩ := kv
    cases fuel with
    | zero => simp at hlen
    | succ f =>
      cases tail with
      | nil =>
        have hshape : dumpRecFields [(k, v)] ++ ('\x7d' :: rest)
            = '"' :: (escStr k ++ ('"' :: (':' ::
                (dumpScalar v ++ ('\x7d' :: rest))))) := by
          simp [dumpRecFields, dumpStr, List.append_assoc]
        rw [hshape, parseRecFields.eq_def]
        have hs := parseStrBody_escStr k (':' :: (dumpScalar v ++ ('\x7d' :: rest)))
        have hv := parseScalarTok_dumpScalar v ('\x7d' :: rest)
          (noLeadingDigit_cons '\x7d' (by decide) rest)
        simp [hs, hv]
      | cons f2 tail2 =>
        have hshape : dumpRecFields ((k, v) :: f2 :: tail2) ++ ('\x7d' :: rest)
            = '"' :: (escStr k ++ ('"' :: (':' :: (dumpScalar v ++ (',' ::
                (dumpRecFields (f2 :: tail2) ++ ('\x7d' :: rest))))))) := by
          simp [dumpRecFields, dumpStr, List.append_assoc]
        rw [hshape, parseRecFields.eq_def]
        have hs := parseStrBody_escStr k
          (':' :: (dumpScalar v ++ (',' ::
            (dumpRecFields (f2 :: tail2) ++ ('\x7d' :: rest)))))
        have hv := parseScalarTok_dumpScalar v
          (',' :: (dumpRecFields (f2 :: tail2) ++ ('\x7d' :: rest)))
          (noLeadingDigit_cons ',' (by decide) _)
        have hrec := ih f rest (by simp) (by simp at hlen ⊢; omega)
        simp [hs, hv, hrec]

theorem parseRecObj_dump (fields : FileRec) (fuel : Nat) (rest : Str)
    (hlen : fields.length ≤ fuel) :
    parseRecObj fuel (dumpRecFields fields ++ ('\x7d' :: rest))
      = some (fields, rest) := by
  cases fields with
  | nil => simp [dumpRecFields, parseRecObj]
  | cons kv tail =>
    obtain ⟨k, v⟩ := kv
    have hhead : ∃ t : Str, dumpRecFields ((k, v) :: tail) = '"' :: t := by
      cases tail with
      | nil =>
        exact ⟨escStr k ++ '"' :: ':' :: dumpScalar v,
          by simp [dumpRecFields, dumpStr]⟩
      | cons f2 tail2 =>
        exact ⟨escStr k ++ '"' :: ':' :: (dumpScalar v ++ ',' :: dumpRecFields (f2 :: tail2)),
          by simp [dumpRecFields, dumpStr]⟩
    obtain ⟨t, ht⟩ := hhead
    have hobj : parseRecObj fuel (dumpRecFields ((k, v) :: tail) ++ ('\x7d' :: rest))
        = parseRecFields fuel (dumpRecFields ((k, v) :: tail) ++ ('\x7d' :: rest)) := by
      rw [ht]
      simp [parseRecObj]
    rw [hobj]
    exact parseRecFields_dump ((k, v) :: tail) fuel rest (by simp) hlen

theorem parseStoreFields_dump (sts : Store) : ∀ (fuel : Nat) (rest : Str),
    sts ≠ [] → sts.length ≤ fuel →
    parseStoreFields fuel (dumpStoreFields sts ++ ('\x7d' :: rest))
      = some (sts, rest) := by
  induction sts with
  | nil =>
    intro fuel rest h _
    exact absurd rfl h
  | cons kv tail ih =>
    intro fuel rest _ hlen
    obtain ⟨k, v⟩ := kv
    cases fuel with
    | zero => simp at hlen
    | succ f =>
      cases tail with
      | nil =>
        have hshape : dumpStoreFields [(k, v)] ++ ('\x7d' :: rest)
            = '"' :: (escStr k ++ ('"' :: (':' :: ('\x7b' ::
                (dumpRecFields v ++ ('\x7d' :: ('\x7d' :: rest))))))) := by
          simp [dumpStoreFields, dumpStr, dumpObjRec, List.append_assoc]
        rw [hshape, parseStoreFields.eq_def]
        have hs := parseStrBody_escStr k
          (':' :: ('\x7b' :: (dumpRecFields v ++ ('\x7d' :: ('\x7d' :: rest)))))
        have hlenv : v.length ≤ (dumpRecFields v ++ ('\x7d' :: ('\x7d' :: rest))).length + 1 := by
          have := dumpRecFields_length_le v
          simp only [List.length_append, List.length_cons]
          omega
        have hv := parseRecObj_dump v
          ((dumpRecFields v ++ ('\x7d' :: ('\x7d' :: rest))).length + 1)
          ('\x7d' :: rest) hlenv
        simp only [List.length_append, List.length_cons] at hv
        simp [hs, hv]
      | cons f2 tail2 =>
        have hshape : dumpStoreFields ((k, v) :: f2 :: tail2) ++ ('\x7d' :: rest)
            = '"' :: (escStr k ++ ('"' :: (':' :: ('\x7b' ::
                (dumpRecFields v ++ ('\x7d' :: (',' ::
                  (dumpStoreFields (f2 :: tail2) ++ ('\x7d' :: rest))))))))) := by
          simp [dumpStoreFields, dumpStr, dumpObjRec, List.append_assoc]
        rw [hshape, parseStoreFields.eq_def]
        have hs := parseStrBody_escStr k
          (':' :: ('\x7b' :: (dumpRecFields v ++ ('\x7d' :: (',' ::
            (dumpStoreFields (f2 :: tail2) ++ ('\x7d' :: rest)))))))
        have hlenv : v.length ≤ (dumpRecFields v ++ ('\x7d' :: (',' ::
            (dumpStoreFields (f2 :: tail2) ++ ('\x7d' :: rest))))).length + 1 := by
          have := dumpRecFields_length_le v
          simp only [List.length_append, List.length_cons]
          omega
        have hv := parseRecObj_dump v
          ((dumpRecFields v ++ ('\x7d' :: (',' ::
            (dumpStoreFields (f2 :: tail2) ++ ('\x7d' :: rest))))).length + 1)
          (',' :: (dumpStoreFields (f2 :: tail2) ++ ('\x7d' :: rest))) hlenv
        simp only [List.length_append, List.length_cons] at hv
        have hrec := ih f rest (by simp) (by simp at hlen ⊢; omega)
        simp [hs, hv, hrec]

theorem parseStoreTop_dumpStore (st : Store) :
    parseStoreTop (dumpStore st) = some st := by
  cases st with
  | nil => decide
  | cons kv tail =>
    obtain ⟨k, v⟩ := kv
    have hshape : dumpStore ((k, v) :: tail)
        = '\x7b' :: (dumpStoreFields ((k, v) :: tail) ++ ('\x7d' :: [])) := by
      simp [dumpStore]
    have hhead : ∃ t : Str, dumpStoreFields ((k, v) :: tail) = '"' :: t := by
      cases tail with
      | nil =>
        exact ⟨escStr k ++ '"' :: ':' :: dumpObjRec v,
          by simp [dumpStoreFields, dumpStr]⟩
      | cons f2 tail2 =>
        exact ⟨escStr k ++ '"' :: ':' :: (dumpObjRec v ++ ',' :: dumpStoreFields (f2 :: tail2)),
          by simp [dumpStoreFields, dumpStr]⟩
    obtain ⟨t, ht⟩ := hhead
    have hlen : ((k, v) :: tail).length
        ≤ (dumpStoreFields ((k, v) :: tail) ++ ('\x7d' :: [])).length + 1 := by
      have := dumpStoreFields_length_le ((k, v) :: tail)
      simp only [List.length_append, List.length_cons] at this ⊢
      omega
    have hfields := parseStoreFields_dump ((k, v) :: tail)
      ((dumpStoreFields ((k, v) :: tail) ++ ('\x7d' :: [])).length + 1)
      [] (by simp) hlen
    have ht2 : dumpStoreFields ((k, v) :: tail) ++ ('\x7d' :: [])
        = '"' :: (t ++ ('\x7d' :: [])) := by
      rw [ht]
      simp
    have hstep : ∀ (fuel : Nat) (s : Str), s = '"' :: (t ++ ('\x7d' :: [])) →
        parseStoreObj fuel s = parseStoreFields fuel s := by
      intro fuel s hs
      subst hs
      rw [parseStoreObj.eq_def]
      simp
    have hobj : parseStoreObj
        ((dumpStoreFields ((k, v) :: tail) ++ ('\x7d' :: [])).length + 1)
        (dumpStoreFields ((k, v) :: tail) ++ ('\x7d' :: []))
        = some ((k, v) :: tail, []) := by
      rw [hstep _ _ ht2]
      exact hfields
    simp only [List.length_append, List.length_cons, List.length_nil,
      Nat.zero_add] at hobj
    rw [hshape]
    simp [parseStoreTop, hobj]

theorem dropWhile_append_singleton_ne_nil (p : Char → Bool) (c : Char)
    (h : p c = false) : ∀ xs : Str, (xs ++ [c]).dropWhile p ≠ [] := by
  intro xs
  induction xs with
  | nil => simp [List.dropWhile, h]
  | cons x xs ih =>
    by_cases hx : p x
    · simpa [List.dropWhile, hx] using ih
    · simp [List.dropWhile, hx]

theorem pyStrip_cons_ne_nil (c : Char) (l : Str) (h : isPyWs c = false) :
    pyStrip (c :: l) ≠ [] := by
  unfold pyStrip trimBy
  rw [List.dropWhile_cons, if_neg (by simp [h])]
  rw [List.reverse_cons]
  intro hcon
  rw [List.reverse_eq_nil_iff] at hcon
  exact dropWhile_append_singleton_ne_nil isPyWs c h l.reverse hcon

/-- A valid persisted mapping: no duplicate file ids and no duplicate
field names (a Python dict can never hold duplicates, and `json.loads`
collapses them, so only such mappings arise). -/
def ValidStore (M : Store) : Prop :=
  (M.map Prod.fst).Nodup ∧ ∀ kv ∈ M, ((kv.2).map Prod.fst).Nodup

instance (M : Store) : Decidable (ValidStore M) := by
  unfold ValidStore
  infer_instance

/-- C6: for every valid (JSON-serializable) mapping from file id to
FileRecord, `save(user_id, M)` followed by `load(user_id)` returns a
mapping equal to `M`. -/
theorem c6_save_load_roundtrip (M : Store) (_hvalid : ValidStore M) :
    loadMetadata (some (saveMetadata M)) = .ok M := by
  have hne : pyStrip (dumpStore M) ≠ [] :=
    pyStrip_cons_ne_nil '\x7b' _ (by decide)
  have hrun : leadingOpenRun (dumpStore M) = 0 := by
    simp [dumpStore, leadingOpenRun]
  have hloads : pyLoads (dumpStore M) = .ok M := by
    simp [pyLoads, hrun, recursionLimit, parseStoreTop_dumpStore M]
  simp [loadMetadata, saveMetadata, hne, hloads]

/-- Witness for C6 on a concrete one-file mapping. -/
theorem c6_witness :
    ValidStore [(toL ("f1"),
      [(toL ("id"), JScalar.jstr (toL ("f1"))), (toL ("size"), JScalar.jnum 42)])] ∧
    loadMetadata (some (saveMetadata [(toL ("f1"),
      [(toL ("id"), JScalar.jstr (toL ("f1"))), (toL ("size"), JScalar.jnum 42)])]))
      = .ok [(toL ("f1"),
      [(toL ("id"), JScalar.jstr (toL ("f1"))), (toL ("size"), JScalar.jnum 42)])] :=
  ⟨by decide, c6_save_load_roundtrip _ (by decide)⟩

/-- C7 is refuted by the narrow `except`: `load_metadata` catches only
`json.JSONDecodeError`, while `json.loads` raises `RecursionError` on
deeply nested stored content, and that propagates out of the call — so
`load` CAN raise because of the stored content.  Evaluated at a backing
file holding 2000 `[` characters (the RecursionError escapes) and, for
contrast, at plain malformed content (a decode error, which is caught
and yields the empty mapping as the claim describes). -/
theorem leadingOpenRun_replicate (n : Nat) :
    leadingOpenRun (List.replicate n '[') = n := by
  induction n with
  | zero => simp [leadingOpenRun]
  | succ m ih =>
    rw [List.replicate_succ]
    simp [leadingOpenRun, ih]

theorem loadMetadata_some_eq (c : Str) (h : pyStrip c ≠ []) :
    loadMetadata (some c) = match pyLoads c with
      | .ok st => .ok st
      | .decodeError => .ok []
      | .recursionError =>
        .error (toL ("RecursionError: maximum recursion depth exceeded")) := by
  unfold loadMetadata
  simp only [Option.getD_some]
  rw [if_neg h]

theorem c7_recursion_error_uncaught :
    loadMetadata (some (List.replicate 2000 '['))
      = .error (toL ("RecursionError: maximum recursion depth exceeded")) ∧
    loadMetadata (some (toL ("nonsense"))) = .ok [] := by
  constructor
  · have hstrip : pyStrip (List.replicate 2000 '[') ≠ [] := by
      rw [show (2000 : Nat) = 1999 + 1 from rfl, List.replicate_succ]
      exact pyStrip_cons_ne_nil '[' _ (by decide)
    have hgt : recursionLimit < leadingOpenRun (List.replicate 2000 '[') := by
      rw [leadingOpenRun_replicate 2000]
      norm_num [recursionLimit]
    have hloads : pyLoads (List.replicate 2000 '[') = .recursionError := by
      unfold pyLoads
      rw [if_pos hgt]
    rw [loadMetadata_some_eq _ hstrip, hloads]
  · decide

/-! ### The recursive chunker (`backend/utils/chunking.py`).
`none` throughout models an uncaught Python exception. -/

/-- The default separator hierarchy `SEPARATORS` of `chunking.py`:
paragraph break, line break, sentence-ending period+space, plain space,
and the empty string. -/
def defaultSeparators : List Str := [['\n', '\n'], ['\n'], ['.', ' '], [' '], []]

/-- Scanning loop of Python `t.split(sep)` for a non-empty separator:
split at each non-overlapping occurrence, scanning left to right.  The
fuel is the length of the remaining input; every step consumes at least
one character, so the fuel-exhausted branch is unreachable. -/
def splitGo (s0 : Char) (srest : Str) : Nat → Str → Str → List Str
  | _, acc, [] => [acc.reverse]
  | 0, acc, t => [acc.reverse ++ t]
  | fuel + 1, acc, c :: cs =>
    if (s0 :: srest).isPrefixOf (c :: cs) then
      acc.reverse :: splitGo s0 srest fuel [] ((c :: cs).drop (srest.length + 1))
    else
      splitGo s0 srest fuel (c :: acc) cs

/-- Python `t.split(sep)` for a non-empty separator (`_split` never calls
it with an empty one: that raises beforehand, see `pySplitRec`). -/
def pySplit (sep t : Str) : List Str :=
  match sep with
  | [] => [t]
  | s0 :: srest => splitGo s0 srest t.length [] t

/-- The slicing loop of the fixed-size fallback:
`for i in range(0, len(t), stride): chunk = t[i:i+size].strip()`, keeping
non-empty chunks.  Fuel as in `splitGo` (each step consumes
`stride ≥ 1` characters). -/
def sliceGo (size stride : Nat) : Nat → Str → List Str
  | _, [] => []
  | 0, _ => []
  | fuel + 1, c :: cs =>
    let chunk := pyStrip ((c :: cs).take size)
    let restChunks := sliceGo size stride fuel ((c :: cs).drop stride)
    if chunk = [] then restChunks else chunk :: restChunks

/-- The fixed-size fallback of `_split` (`chunking.py` lines 44-49):
`range(0, len(t), chunk_size - chunk_overlap)`.  A zero step makes
`range` raise `ValueError` (`none`); a negative step yields an empty
range, so nothing is emitted. -/
def fixedSlices (size ov : Nat) (t : Str) : Option (List Str) :=
  if size = ov then none
  else if size < ov then some []
  else some (sliceGo size (size - ov) t.length t)

/-- The accumulation loop of `_split` over the parts of one separator
level (`chunking.py` lines 55-74), with `recur` standing for the
recursive `_split(part, rest_seps)` call on oversized parts.  The
overlap seeding after a flush is embedded exactly as in the source: the
seeded suffix `_seeded` is overwritten by the very next assignment to
`current` in both branches (`current = ""` after the recursion,
`current = part` otherwise), so it never reaches any chunk. -/
def accumLoop (size ov : Nat) (sep : Str) (recur : Str → Option (List Str)) :
    List Str → Str → Option (List Str)
  | [], current => some (if pyStrip current ≠ [] then [current] else [])
  | part :: parts, current =>
    let toAdd := part.length + (if current ≠ [] then sep.length else 0)
    if current.length + toAdd ≤ size then
      accumLoop size ov sep recur parts
        (if current = [] then part else current ++ sep ++ part)
    else
      let flushed := if current ≠ [] then [current] else []
      let _seeded := current.drop (current.length - ov)
      if part.length > size then
        match recur part with
        | none => none
        | some sub =>
          match accumLoop size ov sep recur parts [] with
          | none => none
          | some tailChunks => some (flushed ++ (sub ++ tailChunks))
      else
        match accumLoop size ov sep recur parts part with
        | none => none
        | some tailChunks => some (flushed ++ tailChunks)

/-- Embedding of `_split(t, seps)` of `chunking.py` (lines 42-74).  The guard is
`if not seps or len(t) <= chunk_size`, which falls back to fixed-size
slicing; otherwise the text is split by the first separator — and
Python's `t.split("")` raises `ValueError: empty separator`, embedded as
`none`. -/
def pySplitRec (size ov : Nat) : List Str → Str → Option (List Str)
  | [], t => fixedSlices size ov t
  | sep :: rest, t =>
    if t.length ≤ size then fixedSlices size ov t
    else if sep = [] then none
    else
      accumLoop size ov sep (fun p => pySplitRec size ov rest p)
        ((pySplit sep t).filter (fun p => p ≠ [])) []

/-- The deduplication loop of `recursive_chunking` (lines 79-85): strip
each chunk text, drop empties, keep first occurrences, and emit the
stripped text. -/
def dedupLoop : List Str → List Str → List Str
  | [], _ => []
  | c :: cs, seen =>
    let key := pyStrip c
    if key ≠ [] ∧ key ∉ seen then key :: dedupLoop cs (key :: seen)
    else dedupLoop cs seen

/-- Embedding of `recursive_chunking(text, chunk_size, chunk_overlap, separators)`
(`chunking.py` lines 12-97), returning the chunk texts in order.  The
per-chunk metadata (fresh uuid, page number, file id, unset embedding)
carries no information the claims quantify over and is dropped.  `none`
models an uncaught exception escaping the call. -/
def recursiveChunking (size ov : Nat) (seps : List Str) (text : Str) :
    Option (List Str) :=
  if pyStrip text = [] then some []
  else
    match pySplitRec size ov seps text with
    | none => none
    | some finals => some (dedupLoop finals [])

theorem dropWhile_cons_head_false (p : Char → Bool) :
    ∀ (l : Str) (a : Char) (as : Str), List.dropWhile p l = a :: as → p a = false := by
  intro l
  induction l with
  | nil =>
    intro a as h
    simp [List.dropWhile] at h
  | cons x xs ih =>
    intro a as h
    by_cases hx : p x
    · rw [List.dropWhile_cons, if_pos hx] at h
      exact ih a as h
    · rw [List.dropWhile_cons, if_neg hx] at h
      injection h with h1 _
      rw [← h1]
      simpa using hx

theorem pyStrip_eq_rdropWhile (x : Str) :
    pyStrip x = List.rdropWhile isPyWs (List.dropWhile isPyWs x) := by
  simp [pyStrip, trimBy, List.rdropWhile]

theorem pyStrip_idem (l : Str) : pyStrip (pyStrip l) = pyStrip l := by
  rw [pyStrip_eq_rdropWhile l,
    pyStrip_eq_rdropWhile (List.rdropWhile isPyWs (List.dropWhile isPyWs l))]
  cases hr : List.rdropWhile isPyWs (List.dropWhile isPyWs l) with
  | nil => simp
  | cons a as =>
    have ha : isPyWs a = false := by
      obtain ⟨t, ht⟩ := List.rdropWhile_prefix isPyWs (List.dropWhile isPyWs l)
      rw [hr] at ht
      exact dropWhile_cons_head_false isPyWs l a (as ++ t)
        (by rw [← ht]; simp)
    rw [List.dropWhile_cons, if_neg (by simp [ha])]
    rw [← hr, List.rdropWhile_idempotent]

/-- First-seen-order deduplication relative to an already-seen set: the
specification-side description of the dedup loop. -/
def firstOccurAux (seen : List Str) : List Str → List Str
  | [] => []
  | x :: xs =>
    if x ∈ seen then firstOccurAux seen xs else x :: firstOccurAux (x :: seen) xs

/-- The distinct elements of a list in order of first occurrence. -/
def firstOccur (l : List Str) : List Str := firstOccurAux [] l

theorem dedupLoop_eq_firstOccurAux :
    ∀ (l : List Str) (seen : List Str),
    dedupLoop l seen = firstOccurAux seen ((l.map pyStrip).filter (fun k => k ≠ [])) := by
  intro l
  induction l with
  | nil => intro seen; simp [dedupLoop, firstOccurAux]
  | cons c cs ih =>
    intro seen
    by_cases hk : pyStrip c = []
    · simp [dedupLoop, hk, ih]
    · by_cases hseen : pyStrip c ∈ seen
      · simp [dedupLoop, hk, hseen, firstOccurAux, ih]
      · simp [dedupLoop, hk, hseen, firstOccurAux, ih]

theorem firstOccurAux_subset :
    ∀ (l seen : List Str) (x : Str), x ∈ firstOccurAux seen l → x ∈ l := by
  intro l
  induction l with
  | nil => intro seen x h; simp [firstOccurAux] at h
  | cons y ys ih =>
    intro seen x h
    by_cases hy : y ∈ seen
    · simp only [firstOccurAux, if_pos hy] at h
      exact List.mem_cons_of_mem y (ih seen x h)
    · simp only [firstOccurAux, if_neg hy, List.mem_cons] at h
      rcases h with h | h
      · exact h ▸ List.mem_cons_self y ys
      · exact List.mem_cons_of_mem y (ih (y :: seen) x h)

theorem firstOccurAux_nodup :
    ∀ (l seen : List Str),
    (firstOccurAux seen l).Nodup ∧ (∀ x ∈ firstOccurAux seen l, x ∉ seen) := by
  intro l
  induction l with
  | nil => intro seen; simp [firstOccurAux]
  | cons y ys ih =>
    intro seen
    by_cases hy : y ∈ seen
    · simp only [firstOccurAux, if_pos hy]
      exact ih seen
    · simp only [firstOccurAux, if_neg hy, List.nodup_cons, List.mem_cons]
      obtain ⟨hnd, hav⟩ := ih (y :: seen)
      refine ⟨⟨?_, hnd⟩, ?_⟩
      · intro hmem
        exact hav y hmem (List.mem_cons_self y seen)
      · intro x hx
        rcases hx with hx | hx
        · exact hx ▸ hy
        · intro hxs
          exact hav x hx (List.mem_cons_of_mem y hxs)

/-- C9: every chunk list produced by `recursive_chunking` has pairwise
distinct trimmed texts, contains no empty or whitespace-only chunk, and
lists the distinct (trimmed) chunk texts in first-occurrence order of
the split output. -/
theorem c9_chunks_deduped_ordered (size ov : Nat) (seps : List Str) (text : Str)
    (chunks : List Str) (h : recursiveChunking size ov seps text = some chunks) :
    List.Pairwise (fun a b => pyStrip a ≠ pyStrip b) chunks ∧
    (∀ c ∈ chunks, pyStrip c ≠ []) ∧
    (∀ finals : List Str, pySplitRec size ov seps text = some finals →
      pyStrip text ≠ [] →
      chunks = firstOccur ((finals.map pyStrip).filter (fun k => k ≠ []))) := by
  by_cases hstrip : pyStrip text = []
  · have hchunks : chunks = [] := by
      simp [recursiveChunking, hstrip] at h
      exact h
    subst hchunks
    refine ⟨by simp, by simp, ?_⟩
    intro finals _ hne
    exact absurd hstrip hne
  · rcases hsp : pySplitRec size ov seps text with _ | finals0
    · simp [recursiveChunking, hstrip, hsp] at h
    · have hchunks : chunks = dedupLoop finals0 [] := by
        simp [recursiveChunking, hstrip, hsp] at h
        exact h.symm
      have hform : chunks
          = firstOccurAux [] ((finals0.map pyStrip).filter (fun k => k ≠ [])) := by
        rw [hchunks, dedupLoop_eq_firstOccurAux]
      have hfix : ∀ x ∈ chunks, pyStrip x = x ∧ x ≠ [] := by
        intro x hx
        rw [hform] at hx
        have hmem := firstOccurAux_subset _ [] x hx
        simp only [List.mem_filter, List.mem_map] at hmem
        obtain ⟨⟨c, _, hc⟩, hne⟩ := hmem
        constructor
        · rw [← hc, pyStrip_idem]
        · simpa using hne
      refine ⟨?_, ?_, ?_⟩
      · have hnd : chunks.Nodup := by
          rw [hform]
          exact (firstOccurAux_nodup _ []).1
        refine List.Pairwise.imp_of_mem ?_ hnd
        intro a b ha hb hab hcon
        rw [(hfix a ha).1, (hfix b hb).1] at hcon
        exact hab hcon
      · intro c hc
        rw [(hfix c hc).1]
        exact (hfix c hc).2
      · intro finals hfin _
        have hinj : finals0 = finals := Option.some.inj hfin
        rw [← hinj]
        exact hform

/-- Witness for C9 on a concrete input with a duplicate and a
whitespace-only split result. -/
theorem c9_witness :
    recursiveChunking 4 1 [[' ']] (toL ("aa aa")) = some [toL ("aa")] ∧
    List.Pairwise (fun a b => pyStrip a ≠ pyStrip b) [toL ("aa")] := by
  constructor
  · decide
  · exact (c9_chunks_deduped_ordered 4 1 [[' ']] (toL ("aa aa")) [toL ("aa")]
      (by decide)).1

/-- C4 as claimed is false: with the default separator hierarchy a run
longer than `chunk_size` containing no separator characters reaches the
level whose separator is the empty string while still oversized, and
Python's `"".split` there raises `ValueError: empty separator` instead
of falling back to fixed-size slicing (the `not seps` fallback is
unreachable from the recursion, which always passes a non-empty
`rest_seps` until this error fires).  Evaluated at chunk_size 3,
overlap 1 (so `0 ≤ overlap < chunk_size`) on the separator-free run
`aaaaa`. -/
theorem c4_empty_separator_error :
    recursiveChunking 3 1 defaultSeparators (toL ("aaaaa")) = none := by decide

/-- C3 as claimed is false: after a flush the seeded overlap buffer is
immediately overwritten by `current = part` (or `current = ""`), so the
next emitted chunk does not begin with the trailing `chunk_overlap`
characters of the flushed chunk.  With chunk_size 4 and overlap 2 on
`aaa bbb`, the flushed chunk is `aaa`, whose trailing two characters are
`aa`, yet the next chunk is `bbb`. -/
theorem c3_overlap_seed_dead :
    recursiveChunking 4 2 [[' ']] (toL ("aaa bbb"))
      = some [toL ("aaa"), toL ("bbb")] ∧
    (toL ("bbb")).take 2 ≠ (toL ("aaa")).drop ((toL ("aaa")).length - 2) := by
  decide

/-! ### Filename sanitization (`backend/utils/helpers.py` lines 11-45),
embedded with POSIX path semantics (`os.path` on the Linux deployment:
`/` is the only separator; a backslash is an ordinary character). -/

/-- Index of the last occurrence of `c`, if any (CPython `str.rfind`). -/
def lastIndexOf (c : Char) : Str → Option Nat
  | [] => none
  | x :: xs =>
    match lastIndexOf c xs with
    | some i => some (i + 1)
    | none => if x = c then some 0 else none

/-- Embedding of `posixpath.splitext`: split off the extension at the last dot, but
only when that dot lies after the last slash and at least one non-dot
character stands between them (leading dots mark a hidden file, not an
extension). -/
def splitextPosix (p : Str) : Str × Str :=
  let sepIdx : Int := match lastIndexOf '/' p with | some i => (i : Int) | none => -1
  let dotIdx : Int := match lastIndexOf '.' p with | some i => (i : Int) | none => -1
  if sepIdx < dotIdx then
    let mid := (p.drop (sepIdx + 1).toNat).take (dotIdx - sepIdx - 1).toNat
    if mid.any (fun c => c ≠ '.') then (p.take dotIdx.toNat, p.drop dotIdx.toNat)
    else (p, [])
  else (p, [])

/-- Embedding of `posixpath.basename`: everything after the last slash. -/
def basenamePosix (p : Str) : Str :=
  (p.reverse.takeWhile (fun c => c ≠ '/')).reverse

/-- The character class `[<>:"/\\|?*\x00-\x1f]` replaced by `_`. -/
def isBadCh (c : Char) : Bool :=
  c = '<' || c = '>' || c = ':' || c = '"' || c = '/' || c = '\\' || c = '|' ||
  c = '?' || c = '*' || c.toNat ≤ 0x1f

/-- Embedding of the `re.sub` underscore collapse: merge runs of underscores. -/
def collapseUnderscores : Str → Str
  | [] => []
  | [c] => [c]
  | c1 :: c2 :: rest =>
    if c1 = '_' && c2 = '_' then collapseUnderscores (c2 :: rest)
    else c1 :: collapseUnderscores (c2 :: rest)

/-- The `name` pipeline of `sanitize_filename`: strip the path, replace
the unsafe character class, collapse underscore runs, trim unsafe
leading/trailing characters, truncate to 100 characters.  Python
`str.lower` is `Char.toLower` here (ASCII lowering; the guarantees the
claims state concern `/`, `\` and a leading dot, which lowering never
produces). -/
def sanitizedNamePart (filename : Str) : Str :=
  let name1 := basenamePosix (splitextPosix filename).1
  let name2 := name1.map (fun c => if isBadCh c then '_' else c)
  let name3 := collapseUnderscores name2
  let name4 := trimBy (fun c => c = ' ' || c = '.' || c = '_') name3
  if name4.length > 100 then name4.take 100 else name4

/-- The `ext.lower() if ext else` empty-string step of `sanitize_filename`. -/
def extLower (filename : Str) : Str :=
  if (splitextPosix filename).2 ≠ [] then (splitextPosix filename).2.map Char.toLower
  else []

/-- Embedding of `sanitize_filename(filename)` of `helpers.py`, with the current time
(`int(time.time())` of the fallback name) as an explicit parameter. -/
def sanitizeFilename (now : Nat) (filename : Str) : Str :=
  if filename = [] then toL ("unnamed_file")
  else
    let safe := sanitizedNamePart filename ++ extLower filename
    if safe = [] ∨ safe.head? = some '.' then
      toL ("file_") ++ natDigits now ++ extLower filename
    else safe

theorem lastIndexOf_none (c : Char) :
    ∀ l : Str, lastIndexOf c l = none → c ∉ l := by
  intro l
  induction l with
  | nil => simp
  | cons x xs ih =>
    intro h
    simp only [lastIndexOf] at h
    rcases hx : lastIndexOf c xs with _ | i
    · rw [hx] at h
      by_cases hxc : x = c
      · simp [hxc] at h
      · simp only [List.mem_cons, not_or]
        exact ⟨fun hh => hxc hh.symm, ih hx⟩
    · rw [hx] at h
      simp at h

theorem lastIndexOf_drop (c : Char) :
    ∀ (l : Str) (i : Nat), lastIndexOf c l = some i →
    ∀ x ∈ l.drop (i + 1), x ≠ c := by
  intro l
  induction l with
  | nil =>
    intro i h
    simp [lastIndexOf] at h
  | cons y ys ih =>
    intro i h x hx
    simp only [lastIndexOf] at h
    rcases hy : lastIndexOf c ys with _ | j
    · rw [hy] at h
      by_cases hyc : y = c
      · rw [if_pos hyc] at h
        have hi : i = 0 := by simpa using h.symm
        subst hi
        simp only [List.drop_succ_cons, List.drop_zero] at hx
        intro hxc
        exact (lastIndexOf_none c ys hy) (hxc ▸ hx)
      · rw [if_neg hyc] at h
        simp at h
    · rw [hy] at h
      have hi : i = j + 1 := by simpa using h.symm
      subst hi
      simp only [List.drop_succ_cons] at hx
      exact ih j hy x hx

theorem splitext_snd_no_slash (p : Str) : '/' ∉ (splitextPosix p).2 := by
  unfold splitextPosix
  rcases hdot : lastIndexOf '.' p with _ | d
  · rcases hsep : lastIndexOf '/' p with _ | s <;> simp
  · rcases hsep : lastIndexOf '/' p with _ | s
    · have hcond : (-1 : Int) < (d : Int) := by omega
      simp only [hcond, if_pos]
      by_cases hmid : ((p.drop ((-1 : Int) + 1).toNat).take
          ((d : Int) - (-1) - 1).toNat).any (fun c => c ≠ '.')
      · simp only [hmid, if_pos]
        intro hmem
        have hp : '/' ∈ p := List.drop_subset _ p hmem
        exact (lastIndexOf_none '/' p hsep) hp
      · rw [if_neg hmid]
        simp
    · by_cases hcond : ((s : Int) < (d : Int))
      · simp only [hcond, if_pos]
        by_cases hmid : ((p.drop ((s : Int) + 1).toNat).take
            ((d : Int) - (s : Int) - 1).toNat).any (fun c => c ≠ '.')
        · simp only [hmid, if_pos]
          intro hmem
          have hsd : s < d := by omega
          have hdrop : p.drop ((d : Int).toNat)
              = (p.drop (s + 1)).drop ((d : Int).toNat - (s + 1)) := by
            rw [List.drop_drop]
            congr 1
            omega
          rw [hdrop] at hmem
          have hmem2 : '/' ∈ p.drop (s + 1) := List.drop_subset _ _ hmem
          exact lastIndexOf_drop '/' p s hsep '/' hmem2 rfl
        · rw [if_neg hmid]
          simp
      · rw [if_neg hcond]
        simp

theorem toLower_ne_slash (c : Char) (h : c ≠ '/') : Char.toLower c ≠ '/' := by
  by_cases hc : c.toNat ≥ 65 ∧ c.toNat ≤ 90
  · have hb : ∀ m, m < 123 → 97 ≤ m → Char.ofNat m ≠ '/' := by decide
    simp only [Char.toLower, hc, if_pos]
    exact hb (c.toNat + 32) (by omega) (by omega)
  · simpa [Char.toLower, hc] using h

theorem extLower_no_slash (f : Str) : '/' ∉ extLower f := by
  unfold extLower
  by_cases hne : (splitextPosix f).2 ≠ []
  · rw [if_pos hne]
    intro hmem
    obtain ⟨c, hc, hlc⟩ := List.mem_map.mp hmem
    have hcs : c ≠ '/' := fun hh => (splitext_snd_no_slash f) (hh ▸ hc)
    exact toLower_ne_slash c hcs hlc
  · rw [if_neg hne]
    simp

theorem collapseUnderscores_subset :
    ∀ (l : Str) (x : Char), x ∈ collapseUnderscores l → x ∈ l := by
  intro l
  induction l with
  | nil => simp [collapseUnderscores]
  | cons c1 rest ih =>
    cases rest with
    | nil => simp [collapseUnderscores]
    | cons c2 rest2 =>
      intro x hx
      by_cases h : (c1 = '_' && c2 = '_') = true
      · rw [collapseUnderscores, if_pos h] at hx
        exact List.mem_cons_of_mem c1 (ih x hx)
      · rw [collapseUnderscores, if_neg h] at hx
        rcases List.mem_cons.mp hx with hx | hx
        · exact hx ▸ List.mem_cons_self c1 _
        · exact List.mem_cons_of_mem c1 (ih x hx)

theorem trimBy_subset (p : Char → Bool) (l : Str) (x : Char)
    (hx : x ∈ trimBy p l) : x ∈ l := by
  unfold trimBy at hx
  rw [List.mem_reverse] at hx
  have h1 := (List.dropWhile_suffix p).subset hx
  rw [List.mem_reverse] at h1
  exact (List.dropWhile_suffix p).subset h1

theorem sanitizedNamePart_no_slash (f : Str) : '/' ∉ sanitizedNamePart f := by
  unfold sanitizedNamePart
  intro hmem
  have h5 : '/' ∈ trimBy (fun c => c = ' ' || c = '.' || c = '_')
      (collapseUnderscores
        ((basenamePosix (splitextPosix f).1).map
          (fun c => if isBadCh c then '_' else c))) := by
    by_cases hlen : (trimBy (fun c => c = ' ' || c = '.' || c = '_')
        (collapseUnderscores
          ((basenamePosix (splitextPosix f).1).map
            (fun c => if isBadCh c then '_' else c)))).length > 100
    · simp only [hlen, if_pos] at hmem
      exact List.take_subset _ _ hmem
    · simpa [hlen] using hmem
  have h4 := trimBy_subset _ _ _ h5
  have h3 := collapseUnderscores_subset _ _ h4
  simp only [List.mem_map] at h3
  obtain ⟨c, _, hc⟩ := h3
  by_cases hb : isBadCh c
  · simp [hb] at hc
  · rw [if_neg hb] at hc
    rw [hc] at hb
    exact hb (by decide)

theorem natDigits_no_slash (n : Nat) : '/' ∉ natDigits n := by
  intro hmem
  have := natDigits_digits n '/' hmem
  exact absurd this (by decide)

/-- C10 as claimed is false on POSIX: `os.path.splitext` keeps a
backslash inside the extension (the only separator is `/`), and the
extension is appended back verbatim (lower-cased), so the result of
`sanitize_filename("a.b\c")` still contains a backslash. -/
theorem c10_counterexample :
    sanitizeFilename 0 (toL ("a.b\\c")) = toL ("a.b\\c") ∧
    '\\' ∈ sanitizeFilename 0 (toL ("a.b\\c")) := by
  constructor
  · decide
  · decide

/-- C10 amended: for every input (including the empty string, dot-only
names, and names with path separators or `..` components) the sanitized
name is non-empty, does not start with a dot, and contains no `/` — so
the stored name cannot escape the user's upload directory on POSIX.
The claimed absence of backslashes does not hold (see the
counterexample); a backslash is an ordinary character to `posixpath`
and can survive inside the extension. -/
theorem c10_sanitize_safe (now : Nat) (filename : Str) :
    sanitizeFilename now filename ≠ [] ∧
    (sanitizeFilename now filename).head? ≠ some '.' ∧
    '/' ∉ sanitizeFilename now filename := by
  by_cases hnil : filename = []
  · subst hnil
    have hval : sanitizeFilename now [] = toL ("unnamed_file") := rfl
    refine ⟨?_, ?_, ?_⟩ <;> rw [hval] <;> decide
  · unfold sanitizeFilename
    rw [if_neg hnil]
    by_cases hguard : sanitizedNamePart filename ++ extLower filename = [] ∨
        (sanitizedNamePart filename ++ extLower filename).head? = some '.'
    · rw [if_pos hguard]
      have hhead : (toL ("file_") ++ natDigits now ++ extLower filename).head?
          = some 'f' := rfl
      refine ⟨?_, ?_, ?_⟩
      · intro hcon
        rw [hcon] at hhead
        simp at hhead
      · rw [hhead]
        decide
      · intro hmem
        rcases List.mem_append.mp hmem with hm | hm
        · rcases List.mem_append.mp hm with hm2 | hm2
          · exact absurd hm2 (by decide)
          · exact natDigits_no_slash now hm2
        · exact extLower_no_slash filename hm
    · rw [if_neg hguard]
      push_neg at hguard
      refine ⟨hguard.1, hguard.2, ?_⟩
      intro hmem
      rcases List.mem_append.mp hmem with hm | hm
      · exact sanitizedNamePart_no_slash filename hm
      · exact extLower_no_slash filename hm

/-! ### The background ingestion pipeline
(`backend/utils/file_processing.py`). -/

/-- Python `needle in hay` on strings. -/
def containsSub (needle : Str) : Str → Bool
  | [] => needle.isEmpty
  | c :: rest => needle.isPrefixOf (c :: rest) || containsSub needle rest

/-- The observable outcome of one `process_file_background` run: the
user's persisted mapping afterwards and how the collaborators were
invoked. -/
structure PipeOutcome where
  store : Store
  chunkerCalled : Bool
  embedCalls : Nat
  indexCalled : Bool
deriving DecidableEq

/-- The top-level `except` handler of `process_file_background` (lines
113-126): format the error as `type(e).__name__: e` and best-effort
write `status=error` with the message; a failure of that update itself
is logged and swallowed, so the persisted mapping is whatever
`update_file_metadata` left behind. -/
def handleFail (meta : Store) (fileId : Str) (errorMsg : Str) (now : JScalar)
    (chunkerCalled : Bool) (embedCalls : Nat) (indexCalled : Bool) : PipeOutcome :=
  let res := updateFileMetadata meta fileId
    [(toL ("status"), .jstr (toL ("error"))), (toL ("error"), .jstr errorMsg)] now
  ⟨res.1, chunkerCalled, embedCalls, indexCalled⟩

/-- The per-chunk embedding loop (lines 73-88): chunks whose text is
empty after trimming are skipped with an empty embedding; otherwise the
embedder runs, and an embedder exception or a result that is not a
non-empty vector aborts the whole job.  The error carries the number of
embedder invocations made before the abort. -/
def embedLoop (embedFn : Str → Option (List Int)) :
    List Str → Nat → Except (Str × Nat) Nat
  | [], calls => .ok calls
  | c :: cs, calls =>
    if pyStrip c = [] then embedLoop embedFn cs calls
    else
      match embedFn c with
      | none => .error (toL ("RuntimeError: Failed to embed chunk"), calls + 1)
      | some v =>
        if v = [] then
          .error (toL ("RuntimeError: Invalid embedding for chunk"), calls + 1)
        else embedLoop embedFn cs (calls + 1)

/-- Embedding of `process_file_background(user_id, file_id, file_path, original_name,
mime_type)` (`file_processing.py` lines 32-126), embedded over the
user's loaded mapping with the collaborators explicit: `rawText` is
what `extract_text` returned, `embedFn` is `embed_text` (`none` models
a raised exception), `indexResult` is `store_chunks_in_chroma`'s
outcome, and `now` stands for the wall-clock values written into the
record.  Stage failures raise, are caught once at the top level and
turn into a best-effort `status=error` update. -/
def processFileBackground (meta : Store) (fileId : Str) (rawText : Str)
    (embedFn : Str → Option (List Int)) (indexResult : Option Nat)
    (now : JScalar) : PipeOutcome :=
  if pyStrip rawText = [] then
    handleFail meta fileId (toL ("ValueError: No text extracted from file")) now
      false 0 false
  else
    match recursiveChunking 400 10 defaultSeparators rawText with
    | none =>
      handleFail meta fileId (toL ("ValueError: empty separator")) now true 0 false
    | some chunks =>
      match updateFileMetadata meta fileId
          [(toL ("status"), .jstr (toL ("processing"))),
           (toL ("chunk_count"), .jnum (chunks.length : Int))] now with
      | (meta1, some e) =>
        handleFail meta1 fileId (toL ("ValueError: ") ++ e) now true 0 false
      | (meta1, none) =>
        match embedLoop embedFn chunks 0 with
        | .error (msg, calls) => handleFail meta1 fileId msg now true calls false
        | .ok calls =>
          match indexResult with
          | none =>
            handleFail meta1 fileId
              (toL ("RuntimeError: ChromaDB storage failed")) now true calls true
          | some _ =>
            match updateFileMetadata meta1 fileId
                [(toL ("status"), .jstr (toL ("ready"))),
                 (toL ("processed_at"), now),
                 (toL ("chunk_count"), .jnum (chunks.length : Int)),
                 (toL ("embedding_model"), .jstr (toL ("nomic-embed-text")))] now with
            | (meta2, some e) =>
              handleFail meta2 fileId (toL ("ValueError: ") ++ e) now true calls true
            | (meta2, none) => ⟨meta2, true, calls, true⟩

/-- C1 as claimed is false on the letter of the error text: the recorded
message is `ValueError: No text extracted from file`, which does not
contain the lower-case substring `no text extracted`.  Everything else
the claim states holds on this run (the record ends at `status=error`
with that message). -/
theorem c1_counterexample :
    lookupA (processFileBackground [(toL ("f1"), [])] (toL ("f1")) [' ']
        (fun _ => none) none (JScalar.jnum 0)).store (toL ("f1"))
      = some [(toL ("status"), JScalar.jstr (toL ("error"))),
              (toL ("error"),
                JScalar.jstr (toL ("ValueError: No text extracted from file"))),
              (toL ("last_updated"), JScalar.jnum 0)] ∧
    containsSub (toL ("no text extracted"))
      (toL ("ValueError: No text extracted from file")) = false := by
  constructor
  · decide
  · decide

/-- C1 amended: in every run whose extraction result is empty or
whitespace-only, and in which a record for `file_id` exists in the
store (the upload route creates it before submitting the job), the
persisted record ends with `status = "error"` and an error message
containing `No text extracted` (capital `N`: the raised text is
`ValueError: No text extracted from file`), and neither the chunker nor
the embedding or vector-index collaborators are ever invoked. -/
theorem c1_empty_extraction_errors (meta : Store) (fileId : Str) (rawText : Str)
    (embedFn : Str → Option (List Int)) (indexResult : Option Nat) (now : JScalar)
    (rec0 : FileRec) (hrec : lookupA meta fileId = some rec0)
    (hws : pyStrip rawText = []) :
    (∃ newRec : FileRec,
      lookupA (processFileBackground meta fileId rawText embedFn indexResult
        now).store fileId = some newRec ∧
      lookupA newRec (toL ("status")) = some (.jstr (toL ("error"))) ∧
      ∃ msg : Str, lookupA newRec (toL ("error")) = some (.jstr msg) ∧
        containsSub (toL ("No text extracted")) msg = true) ∧
    (processFileBackground meta fileId rawText embedFn indexResult
      now).chunkerCalled = false ∧
    (processFileBackground meta fileId rawText embedFn indexResult
      now).embedCalls = 0 ∧
    (processFileBackground meta fileId rawText embedFn indexResult
      now).indexCalled = false := by
  have hout : processFileBackground meta fileId rawText embedFn indexResult now
      = handleFail meta fileId (toL ("ValueError: No text extracted from file"))
          now false 0 false := by
    unfold processFileBackground
    rw [if_pos hws]
  have hck : containsKey meta fileId = true := by simp [containsKey, hrec]
  have hupd : updateFileMetadata meta fileId
      [(toL ("status"), .jstr (toL ("error"))),
       (toL ("error"),
         .jstr (toL ("ValueError: No text extracted from file")))] now
      = (dictInsert meta fileId
          (dictInsert (pyDictUpdate rec0
            [(toL ("status"), .jstr (toL ("error"))),
             (toL ("error"),
               .jstr (toL ("ValueError: No text extracted from file")))])
            lastUpdatedKey now), none) := by
    simp [updateFileMetadata, hck, hrec]
  have hstore : (processFileBackground meta fileId rawText embedFn indexResult
      now).store = dictInsert meta fileId
        (dictInsert (pyDictUpdate rec0
          [(toL ("status"), .jstr (toL ("error"))),
           (toL ("error"),
             .jstr (toL ("ValueError: No text extracted from file")))])
          lastUpdatedKey now) := by
    rw [hout]
    simp [handleFail, hupd]
  have hmerge : pyDictUpdate rec0
      [(toL ("status"), .jstr (toL ("error"))),
       (toL ("error"),
         .jstr (toL ("ValueError: No text extracted from file")))]
      = dictInsert (dictInsert rec0 (toL ("status")) (.jstr (toL ("error"))))
          (toL ("error"))
          (.jstr (toL ("ValueError: No text extracted from file"))) := rfl
  refine ⟨⟨dictInsert (pyDictUpdate rec0
      [(toL ("status"), .jstr (toL ("error"))),
       (toL ("error"),
         .jstr (toL ("ValueError: No text extracted from file")))])
      lastUpdatedKey now, ?_, ?_,
      toL ("ValueError: No text extracted from file"), ?_, ?_⟩, ?_, ?_, ?_⟩
  · rw [hstore]
    exact lookupA_dictInsert_self meta fileId _
  · rw [lookupA_dictInsert_ne _ lastUpdatedKey (toL ("status")) now (by decide),
      hmerge,
      lookupA_dictInsert_ne _ (toL ("error")) (toL ("status")) _ (by decide)]
    exact lookupA_dictInsert_self rec0 (toL ("status")) _
  · rw [lookupA_dictInsert_ne _ lastUpdatedKey (toL ("error")) now (by decide),
      hmerge]
    exact lookupA_dictInsert_self _ (toL ("error")) _
  · decide
  · rw [hout]
    rfl
  · rw [hout]
    rfl
  · rw [hout]
    rfl

/-- Witness for C1 on a concrete store with the record present and a
whitespace-only extraction result. -/
theorem c1_witness :
    (processFileBackground [(toL ("f1"), [])] (toL ("f1")) [' ']
      (fun _ => none) none (JScalar.jnum 0)).chunkerCalled = false :=
  (c1_empty_extraction_errors [(toL ("f1"), [])] (toL ("f1")) [' ']
    (fun _ => none) none (JScalar.jnum 0) [] (by decide) (by decide)).2.1

end ChatSpec
